import Mathlib

/-!
Verification of the classpresso pattern-detection core.

Shallow embedding of `src/utils/hash.ts`, `src/core/pattern-detector.ts`,
`src/core/metrics.ts` and the scanner normalization (`normalizeClassString`,
`shouldExcludeClass`).  JavaScript numbers that can go negative are embedded
as `Int`; counts, lengths and indices as `Nat`; `Map`/`Set` as association
lists / lists traversed in insertion order, matching JavaScript iteration
order.  Array sorts with numeric comparators are embedded as the stable
`List.mergeSort` with the corresponding boolean "may come before" relation.
-/

namespace Classpresso

/-- Base36 alphabet of `src/utils/hash.ts`: a-z then 0-9. -/
def ALPHABET : String := "abcdefghijklmnopqrstuvwxyz0123456789"

/-- The symbol `ALPHABET[k]` of the base36 alphabet. -/
def alphaChar (k : Nat) : Char := ALPHABET.data.getD k 'a'

/-- The do/while loop of `generateSequentialName`:
`result = ALPHABET[n % BASE] + result; n = Math.floor(n / BASE) - 1` while `n >= 0`.
The loop runs at most `n + 1` times (each round shrinks `n`), so structural `fuel`
recursion with `fuel = n + 1` computes the loop exactly (`seqDigitsGo_eq`). -/
def seqDigitsGo : Nat → Nat → List Char → List Char
  | 0, _, acc => acc
  | fuel + 1, n, acc =>
    if n < 36 then alphaChar (n % 36) :: acc
    else seqDigitsGo fuel (n / 36 - 1) (alphaChar (n % 36) :: acc)

/-- Digit list (big-endian) produced by the naming loop for index `n`. -/
def seqDigits (n : Nat) : List Char := seqDigitsGo (n + 1) n []

/-- `generateSequentialName(index, prefix)` from `src/utils/hash.ts`
(the `prefix` parameter is called `pfx` here). -/
def generateSequentialName (index : Nat) (pfx : String) : String :=
  pfx ++ String.mk (seqDigits index)

/-- `generateSequentialNames(count, prefix)` from `src/utils/hash.ts`. -/
def generateSequentialNames (count : Nat) (pfx : String) : List String :=
  (List.range count).map (fun i => generateSequentialName i pfx)

/-- Position of a base36 digit character in `ALPHABET`. -/
def digitVal (c : Char) : Nat :=
  if 97 ≤ c.toNat then c.toNat - 97 else c.toNat - 48 + 26

/-- One decoding step for bijective base-36 numerals, shifted by one. -/
def decodeStep (a : Nat) (c : Char) : Nat := a * 36 + (digitVal c + 1)

/-- With sufficient fuel the loop's result does not depend on the fuel, and the
accumulator is simply appended after the digits. -/
lemma seqDigitsGo_eq : ∀ fuel n acc, n < fuel →
    seqDigitsGo fuel n acc = seqDigits n ++ acc := by
  intro fuel
  induction fuel using Nat.strong_induction_on with
  | _ fuel ih =>
    intro n acc hn
    match fuel, hn with
    | fuel + 1, hn =>
      by_cases h : n < 36
      · simp [seqDigitsGo, seqDigits, h]
      · have h36 : n / 36 < n := Nat.div_lt_self (by omega) (by omega)
        have lhs : seqDigitsGo (fuel + 1) n acc
            = seqDigits (n / 36 - 1) ++ (alphaChar (n % 36) :: acc) := by
          rw [seqDigitsGo, if_neg h, ih fuel (by omega) _ _ (by omega)]
        have rhs : seqDigits n = seqDigits (n / 36 - 1) ++ [alphaChar (n % 36)] := by
          rw [seqDigits, seqDigitsGo, if_neg h, ih n (by omega) _ _ (by omega)]
        rw [lhs, rhs, List.append_assoc]
        rfl

lemma seqDigits_of_lt {n : Nat} (h : n < 36) : seqDigits n = [alphaChar n] := by
  have : n % 36 = n := Nat.mod_eq_of_lt h
  simp [seqDigits, seqDigitsGo, h, this]

lemma seqDigits_of_ge {n : Nat} (h : ¬ n < 36) :
    seqDigits n = seqDigits (n / 36 - 1) ++ [alphaChar (n % 36)] := by
  have h36 : n / 36 < n := Nat.div_lt_self (by omega) (by omega)
  rw [seqDigits, seqDigitsGo, if_neg h, seqDigitsGo_eq _ _ _ (by omega)]

lemma digitVal_alphabet : ∀ k, k < 36 → digitVal (alphaChar k) = k := by
  decide

/-- Folding the decoder over the digit list recovers the index (shifted by one):
bijective base-36 numerals decode uniquely. -/
lemma foldl_decodeStep_seqDigits (n : Nat) :
    ∀ a : Nat, (seqDigits n).foldl decodeStep a = a * 36 ^ (seqDigits n).length + n + 1 := by
  induction n using Nat.strong_induction_on with
  | _ n ih =>
    intro a
    by_cases h : n < 36
    · rw [seqDigits_of_lt h]
      simp [decodeStep, digitVal_alphabet n h, pow_one]
      omega
    · rw [seqDigits_of_ge h]
      have h36 : n / 36 < n := Nat.div_lt_self (by omega) (by omega)
      have hrec := ih (n / 36 - 1) (by omega) a
      rw [List.foldl_append, hrec]
      have hmod : n % 36 < 36 := Nat.mod_lt _ (by omega)
      have hdm : 36 * (n / 36) + n % 36 = n := Nat.div_add_mod n 36
      have hd1 : 1 ≤ n / 36 := (Nat.one_le_div_iff (by omega)).mpr (by omega)
      simp only [List.foldl_cons, List.foldl_nil, List.length_append, List.length_cons,
        List.length_nil, decodeStep, digitVal_alphabet _ hmod]
      rw [pow_succ]
      ring_nf
      omega

lemma seqDigits_injective : Function.Injective seqDigits := by
  intro m n h
  have hm := foldl_decodeStep_seqDigits m 0
  have hn := foldl_decodeStep_seqDigits n 0
  rw [h] at hm
  omega

lemma seqDigits_length_pos (n : Nat) : 0 < (seqDigits n).length := by
  by_cases h : n < 36
  · rw [seqDigits_of_lt h]; simp
  · rw [seqDigits_of_ge h]; simp

lemma seqDigits_length_mono : ∀ {m n : Nat}, m ≤ n →
    (seqDigits m).length ≤ (seqDigits n).length := by
  intro m n
  induction n using Nat.strong_induction_on generalizing m with
  | _ n ih =>
    intro hmn
    by_cases hn : n < 36
    · rw [seqDigits_of_lt hn, seqDigits_of_lt (by omega : m < 36)]
      simp
    · by_cases hm : m < 36
      · rw [seqDigits_of_lt hm, seqDigits_of_ge hn]
        simp only [List.length_append, List.length_cons, List.length_nil, List.length_singleton]
        have := seqDigits_length_pos (n / 36 - 1)
        omega
      · rw [seqDigits_of_ge hm, seqDigits_of_ge hn]
        have h36 : n / 36 < n := Nat.div_lt_self (by omega) (by omega)
        have hdiv : m / 36 - 1 ≤ n / 36 - 1 := by
          have := Nat.div_le_div_right (c := 36) hmn
          omega
        have := ih (n / 36 - 1) (by omega) hdiv
        simp only [List.length_append, List.length_cons, List.length_nil]
        omega

lemma generateSequentialName_data (i : Nat) (pfx : String) :
    (generateSequentialName i pfx).data = pfx.data ++ seqDigits i := rfl

lemma generateSequentialName_injective (pfx : String) :
    Function.Injective (fun i => generateSequentialName i pfx) := by
  intro i j h
  have hd := congrArg String.data h
  simp only [generateSequentialName_data] at hd
  exact seqDigits_injective (List.append_cancel_left hd)

lemma generateSequentialName_length (i : Nat) (pfx : String) :
    (generateSequentialName i pfx).length = pfx.length + (seqDigits i).length := by
  show (pfx.data ++ seqDigits i).length = pfx.data.length + (seqDigits i).length
  exact List.length_append _ _

lemma generateSequentialName_length_mono {i j : Nat} (h : i ≤ j) (pfx : String) :
    (generateSequentialName i pfx).length ≤ (generateSequentialName j pfx).length := by
  rw [generateSequentialName_length, generateSequentialName_length]
  have := seqDigits_length_mono h
  omega

/-- C7: `generateSequentialName(i, p)` is the bijective base-36 numeral of `i`
over the alphabet a-z then 0-9, with the prefix `p` prepended: for `i < 36` it is
`p` followed by the `i`-th alphabet symbol, `36 ↦ p ++ "aa"`, `71 ↦ p ++ "a9"`,
`72 ↦ p ++ "ba"`; it is injective for a fixed prefix, and
`generateSequentialNames n p` returns exactly `n` pairwise-distinct entries. -/
theorem C7_sequential_naming (p : String) :
    (∀ i : Fin 36, generateSequentialName i.val p
        = p ++ String.mk [alphaChar i.val]) ∧
    generateSequentialName 36 p = p ++ "aa" ∧
    generateSequentialName 71 p = p ++ "a9" ∧
    generateSequentialName 72 p = p ++ "ba" ∧
    Function.Injective (fun i => generateSequentialName i p) ∧
    ∀ n : Nat, (generateSequentialNames n p).length = n ∧
      (generateSequentialNames n p).Nodup := by
  refine ⟨?_, ?_, ?_, ?_, generateSequentialName_injective p, ?_⟩
  · intro i
    rw [generateSequentialName, seqDigits_of_lt i.isLt]
  · rw [generateSequentialName, show seqDigits 36 = "aa".data by decide]
  · rw [generateSequentialName, show seqDigits 71 = "a9".data by decide]
  · rw [generateSequentialName, show seqDigits 72 = "ba".data by decide]
  · intro n
    constructor
    · simp [generateSequentialNames]
    · exact (List.nodup_range n).map (generateSequentialName_injective p)

/-- Witness for C7 at concrete inputs. -/
theorem C7_sequential_naming_witness :
    generateSequentialName 5 "cp-" = "cp-" ++ String.mk [alphaChar 5] ∧
    generateSequentialName 36 "cp-" = "cp-" ++ "aa" ∧
    (generateSequentialNames 3 "cp-").length = 3 ∧
    (generateSequentialNames 3 "cp-").Nodup := by
  have h := C7_sequential_naming "cp-"
  exact ⟨h.1 ⟨5, by decide⟩, h.2.1, (h.2.2.2.2.2 3).1, (h.2.2.2.2.2 3).2⟩

/-! ### Data model (`src/types/index.ts`) -/

/-- Context tags of `sourceTypes`: client script, server-rendered markup,
react-server-component payload. -/
inductive SourceType
  | js
  | html
  | rsc
deriving DecidableEq

/-- A `(file, line)` provenance record. -/
structure FileLocation where
  filePath : String
  line : Nat := 0
deriving DecidableEq

/-- One normalized class pattern as observed across all scanned files. -/
structure ClassOccurrence where
  classString : String
  normalizedKey : String
  count : Nat
  classes : List String
  excludedClasses : List String
  locations : List FileLocation := []
  sourceTypes : List SourceType := []
deriving DecidableEq

/-- Exclusion rules.  The regexes of the `patterns` rule are embedded as
black-box boolean tests, which is all `shouldExcludeClass` uses of them. -/
structure ExcludeConfig where
  prefixes : List String := []
  suffixes : List String := []
  classes : List String := []
  patterns : List (String → Bool) := []

/-- `shouldExcludeClass` from the scanner (`src/unnamed/part_010`): logical OR
of the four independent rule kinds. -/
def shouldExcludeClass (className : String) (exclude : ExcludeConfig) : Bool :=
  exclude.prefixes.any (fun p => className.startsWith p) ||
  exclude.suffixes.any (fun sfx => className.endsWith sfx) ||
  exclude.classes.contains className ||
  exclude.patterns.any (fun pat => pat className)

/-- Character-level tokenizer: collects the maximal runs of non-whitespace
characters, which is what `classString.split(/\s+/).filter(Boolean)` produces
(`acc` holds the current run, reversed). -/
def tokensAux : List Char → List Char → List String
  | [], [] => []
  | [], acc => [String.mk acc.reverse]
  | c :: rest, acc =>
    if c.isWhitespace then
      match acc with
      | [] => tokensAux rest []
      | _ => String.mk acc.reverse :: tokensAux rest []
    else tokensAux rest (c :: acc)

/-- `classString.split(/\s+/).filter(Boolean)`: whitespace-split tokens. -/
def splitWhitespace (s : String) : List String := tokensAux s.data []

/-- Lexicographic comparison of character lists by code point, the order the
JavaScript default `sort()` comparator applies to strings. -/
def charListLeB : List Char → List Char → Bool
  | [], _ => true
  | _ :: _, [] => false
  | a :: as, b :: bs =>
    if a.toNat < b.toNat then true
    else if b.toNat < a.toNat then false
    else charListLeB as bs

/-- String comparison of the JavaScript default `sort()` comparator. -/
def strLe (a b : String) : Prop := charListLeB a.data b.data = true

instance : DecidableRel strLe := fun a b =>
  inferInstanceAs (Decidable (charListLeB a.data b.data = true))

lemma charListLeB_cons (x y : Char) (xs ys : List Char) :
    charListLeB (x :: xs) (y :: ys)
      = if x.toNat < y.toNat then true
        else if y.toNat < x.toNat then false
        else charListLeB xs ys := rfl

lemma charListLeB_trans : ∀ xs ys zs : List Char, charListLeB xs ys = true →
    charListLeB ys zs = true → charListLeB xs zs = true
  | [], _, _, _, _ => rfl
  | x :: xs, [], _, h1, _ => by simp [charListLeB] at h1
  | _ :: _, _ :: _, [], _, h2 => by simp [charListLeB] at h2
  | x :: xs, y :: ys, z :: zs, h1, h2 => by
    rw [charListLeB_cons] at h1 h2 ⊢
    have hxy : ¬ y.toNat < x.toNat := by
      intro hc
      rw [if_neg (by omega), if_pos hc] at h1
      exact Bool.false_ne_true h1
    have hyz : ¬ z.toNat < y.toNat := by
      intro hc
      rw [if_neg (by omega), if_pos hc] at h2
      exact Bool.false_ne_true h2
    rcases Nat.lt_trichotomy x.toNat z.toNat with hxz | hxz | hxz
    · rw [if_pos hxz]
    · rw [if_neg (by omega), if_neg (by omega)]
      rw [if_neg (by omega), if_neg (by omega)] at h1
      rw [if_neg (by omega), if_neg (by omega)] at h2
      exact charListLeB_trans xs ys zs h1 h2
    · exact ((by omega : False)).elim

lemma charListLeB_total : ∀ xs ys : List Char,
    charListLeB xs ys = true ∨ charListLeB ys xs = true
  | [], _ => Or.inl rfl
  | _ :: _, [] => Or.inr rfl
  | x :: xs, y :: ys => by
    rw [charListLeB_cons, charListLeB_cons]
    rcases Nat.lt_trichotomy x.toNat y.toNat with h | h | h
    · left; rw [if_pos h]
    · rw [if_neg (by omega), if_neg (by omega), if_neg (by omega), if_neg (by omega)]
      exact charListLeB_total xs ys
    · right; rw [if_pos h]

instance : IsTrans String strLe :=
  ⟨fun a b c h1 h2 => charListLeB_trans a.data b.data c.data h1 h2⟩

instance : IsTotal String strLe :=
  ⟨fun a b => charListLeB_total a.data b.data⟩

/-- Return type of `normalizeClassString`. -/
structure NormalizeResult where
  normalized : String
  classes : List String
  excludedClasses : List String
deriving DecidableEq

/-- `normalizeClassString` from the scanner (`src/unnamed/part_010`): the
classification loop pushes each token into `includedClasses` or
`excludedClasses` (embedded as the two order-preserving filters), then joins a
sorted copy of the included tokens for the normalized key. -/
def normalizeClassString (classString : String) (exclude : ExcludeConfig) :
    NormalizeResult :=
  let allClasses := splitWhitespace classString
  let includedClasses := allClasses.filter (fun cls => !shouldExcludeClass cls exclude)
  let excludedClasses := allClasses.filter (fun cls => shouldExcludeClass cls exclude)
  let sorted := List.insertionSort strLe includedClasses
  { normalized := String.intercalate " " sorted
    classes := includedClasses
    excludedClasses := excludedClasses }

/-- C6 counterexample: on input `"b a"` with no exclusions, the `classes`
field keeps the original token order `["b", "a"]` — it is not the
lexicographically sorted list `["a", "b"]` the claim describes (only the
normalized key is sorted). -/
theorem C6_classes_sorted_counterexample :
    (normalizeClassString "b a" {}).classes ≠ ["a", "b"] ∧
    (normalizeClassString "b a" {}).classes = ["b", "a"] ∧
    (normalizeClassString "b a" {}).normalized = "a b" := by
  refine ⟨?_, ?_, ?_⟩ <;> decide

/-- C6 (amended): `classes` and `excludedClasses` partition the
whitespace-split tokens of the input (each in original order, `classes` is not
re-sorted), and the normalized key is the lexicographically sorted included
tokens joined by single spaces. -/
theorem C6_normalize_partition (s : String) (ex : ExcludeConfig) :
    (normalizeClassString s ex).classes
        = (splitWhitespace s).filter (fun cls => !shouldExcludeClass cls ex) ∧
    (normalizeClassString s ex).excludedClasses
        = (splitWhitespace s).filter (fun cls => shouldExcludeClass cls ex) ∧
    ((normalizeClassString s ex).classes
        ++ (normalizeClassString s ex).excludedClasses).Perm (splitWhitespace s) ∧
    ∃ l : List String, l.Perm (normalizeClassString s ex).classes ∧
      l.Sorted strLe ∧
      (normalizeClassString s ex).normalized = String.intercalate " " l := by
  refine ⟨rfl, rfl, ?_, ?_⟩
  · have h := List.filter_append_perm
      (fun cls => !shouldExcludeClass cls ex) (splitWhitespace s)
    simpa [Bool.not_not] using h
  · refine ⟨List.insertionSort strLe ((splitWhitespace s).filter
        (fun cls => !shouldExcludeClass cls ex)), ?_, ?_, rfl⟩
    · exact List.perm_insertionSort _ _
    · exact List.sorted_insertionSort _ _

/-! ### Pattern detector (`src/core/pattern-detector.ts`, `src/core/metrics.ts`) -/

/-- Detection-relevant configuration (`hashPrefix` of the source is `hashPfx`
here).  Sizes/counts are `Nat`; `minBytesSaved` is compared against a possibly
negative savings estimate, hence `Int`. -/
structure ClasspressoConfig where
  minOccurrences : Nat
  minClasses : Nat
  minBytesSaved : Int
  hashPfx : String
  ssr : Bool := false
  forceAll : Bool := false
  skipPatternsWithExcludedClasses : Bool := false

/-- A ClassOccurrence promoted to "will be transformed". -/
structure ConsolidationCandidate where
  classString : String
  normalizedKey : String
  frequency : Nat
  bytesSaved : Int
  classes : List String
  excludedClasses : List String
  hashName : String
deriving DecidableEq

/-- `calculateBytesSaved` from `src/core/pattern-detector.ts`.  JavaScript
number subtraction can go negative, so the computation is over `Int`. -/
def calculateBytesSaved (original hashName : String) (frequency : Nat)
    (excludedClasses : List String) : Int :=
  let originalLength : Int := original.length
  let excludedLength : Int := (String.intercalate " " excludedClasses).length
  let includedLength : Int :=
    originalLength - excludedLength - (if excludedClasses.length > 0 then 1 else 0)
  let newLength : Int := hashName.length
  (includedLength - newLength) * frequency

/-- `calculatePatternCSSOverhead` from `src/core/metrics.ts`:
base 15 bytes plus 20 bytes per declared class. -/
def calculatePatternCSSOverhead (classes : List String) : Nat :=
  15 + classes.length * 20

/-- Modelled from the spec: `isHydrationSafe` lives in `src/core/scanner.ts`,
which is not among the provided sources (only its tests and its caller in
`pattern-detector.ts` are).  Spec §4.2: in safety-sensitive mode "a pattern is
admitted to consolidation only if it was observed in *both* markup and script
contexts (hydration-safe)". -/
def isHydrationSafe (occurrence : ClassOccurrence) : Bool :=
  occurrence.sourceTypes.contains SourceType.html &&
  occurrence.sourceTypes.contains SourceType.js

/-- `mergeablePatterns && mergeablePatterns.has(key)` (the `Set` is embedded
as a list with membership). -/
def mergeableHas : Option (List String) → String → Bool
  | some pats, key => pats.contains key
  | none, _ => false

/-- Comparator relation of the first detector sort,
`(a, b) => b.occurrence.count - a.occurrence.count` (descending count):
`a` may come before `b` iff the comparator is `≤ 0`. -/
def countGe (a b : ClassOccurrence × Nat) : Prop := b.1.count ≤ a.1.count

instance : DecidableRel countGe := fun a b =>
  inferInstanceAs (Decidable (b.1.count ≤ a.1.count))

instance : IsTrans (ClassOccurrence × Nat) countGe :=
  ⟨fun _ _ _ h1 h2 => le_trans h2 h1⟩

instance : IsTotal (ClassOccurrence × Nat) countGe :=
  ⟨fun a b => le_total b.1.count a.1.count⟩

/-- Comparator relation of the final detector sort,
`(a, b) => b.bytesSaved - a.bytesSaved` (descending savings). -/
def candGe (a b : ConsolidationCandidate) : Prop := b.bytesSaved ≤ a.bytesSaved

instance : DecidableRel candGe := fun a b =>
  inferInstanceAs (Decidable (b.bytesSaved ≤ a.bytesSaved))

instance : IsTrans ConsolidationCandidate candGe :=
  ⟨fun _ _ _ h1 h2 => le_trans h2 h1⟩

instance : IsTotal ConsolidationCandidate candGe :=
  ⟨fun a b => le_total b.bytesSaved a.bytesSaved⟩

/-- Third-pass candidate construction: sequential name from the position `i`
in the frequency-sorted filtered list, then the authoritative `bytesSaved`
with the real name. -/
def mkCandidate (config : ClasspressoConfig) (i : Nat)
    (occurrence : ClassOccurrence) : ConsolidationCandidate :=
  let hashName := generateSequentialName i config.hashPfx
  { classString := occurrence.classString
    normalizedKey := occurrence.normalizedKey
    frequency := occurrence.count
    bytesSaved := calculateBytesSaved occurrence.classString hashName
      occurrence.count occurrence.excludedClasses
    classes := occurrence.classes
    excludedClasses := occurrence.excludedClasses
    hashName := hashName }

/-- First (eligibility) pass of `detectConsolidatablePatterns`, for one
occurrence map entry: the chain of `continue` filters, then the pair
`{ occurrence, cssOverhead }`. -/
def prelimStep (config : ClasspressoConfig) (mergeablePatterns : Option (List String))
    (entry : String × ClassOccurrence) : Option (ClassOccurrence × Nat) :=
  if entry.2.count < config.minOccurrences then none
  else if entry.2.classes.length < config.minClasses then none
  else if config.ssr && !isHydrationSafe entry.2 then none
  else if config.ssr && mergeableHas mergeablePatterns entry.2.normalizedKey then none
  else if config.skipPatternsWithExcludedClasses
      && decide (0 < entry.2.excludedClasses.length) then none
  else some (entry.2, calculatePatternCSSOverhead entry.2.classes)

/-- Second (provisional byte-filter) pass predicate: placeholder name of
length `hashPrefix.length + 1`, minimum-savings threshold, and the
net-positive-savings check that `forceAll` bypasses. -/
def estimateKeep (config : ClasspressoConfig) (pc : ClassOccurrence × Nat) : Bool :=
  let estimatedNameLength := config.hashPfx.length + 1
  let estimatedBytesSaved := calculateBytesSaved pc.1.classString
    (String.mk (List.replicate estimatedNameLength 'x')) pc.1.count pc.1.excludedClasses
  if estimatedBytesSaved < config.minBytesSaved then false
  else if !config.forceAll && decide (estimatedBytesSaved ≤ (pc.2 : Int)) then false
  else true

/-- The frequency-sorted, byte-filtered survivor list (passes 1-3 before
naming). -/
def filteredCandidatesOf (occurrences : List (String × ClassOccurrence))
    (config : ClasspressoConfig) (mergeablePatterns : Option (List String)) :
    List (ClassOccurrence × Nat) :=
  (List.insertionSort countGe
    (occurrences.filterMap (prelimStep config mergeablePatterns))).filter
    (estimateKeep config)

/-- `detectConsolidatablePatterns` from `src/core/pattern-detector.ts`.  The
occurrence `Map` is an association list iterated in insertion order; the two
JavaScript stable `sort`s are embedded as stable insertion sorts with the
comparator-induced relations (stable sorting has a unique result, so any
stable algorithm is a faithful embedding of `Array.prototype.sort`). -/
def detectConsolidatablePatterns (occurrences : List (String × ClassOccurrence))
    (config : ClasspressoConfig) (mergeablePatterns : Option (List String)) :
    List ConsolidationCandidate :=
  List.insertionSort candGe
    ((filteredCandidatesOf occurrences config mergeablePatterns).enum.map
      (fun ip => mkCandidate config ip.1 ip.2.1))

/-- Return type of `getPatternSummary`.  The two averages are produced by
JavaScript number division and are embedded as exact rationals. -/
structure PatternSummary where
  totalPatterns : Nat
  totalOccurrences : Nat
  totalBytesSaved : Int
  avgFrequency : Rat
  avgClassesPerPattern : Rat
deriving DecidableEq

/-- `getPatternSummary` from `src/core/pattern-detector.ts`. -/
def getPatternSummary (candidates : List ConsolidationCandidate) : PatternSummary :=
  let totalPatterns : Nat := candidates.length
  let totalOccurrences : Nat := candidates.foldl (fun sum c => sum + c.frequency) 0
  let totalBytesSaved : Int := candidates.foldl (fun sum c => sum + c.bytesSaved) (0 : Int)
  let totalClasses : Nat := candidates.foldl (fun sum c => sum + c.classes.length) 0
  { totalPatterns := totalPatterns
    totalOccurrences := totalOccurrences
    totalBytesSaved := totalBytesSaved
    avgFrequency :=
      if totalPatterns > 0 then (totalOccurrences : Rat) / totalPatterns else 0
    avgClassesPerPattern :=
      if totalPatterns > 0 then (totalClasses : Rat) / totalPatterns else 0 }

/-- C5: `calculateBytesSaved(s, n, f, e)` equals
`((len s − len (join " " e) − [e ≠ []]) − len n) · f`, is linear in the
frequency, and can be negative. -/
theorem C5_calculateBytesSaved_formula (s n : String) (f : Nat) (e : List String) :
    calculateBytesSaved s n f e
      = ((s.length : Int) - ((String.intercalate " " e).length : Int)
          - (if e ≠ [] then 1 else 0) - (n.length : Int)) * f ∧
    calculateBytesSaved s n (2 * f) e = 2 * calculateBytesSaved s n f e ∧
    calculateBytesSaved "ab" "abcdef" 1 [] < 0 := by
  refine ⟨?_, ?_, by decide⟩
  · have he : (if e ≠ [] then (1 : Int) else 0) = (if 0 < e.length then 1 else 0) := by
      cases e <;> simp
    rw [he]
    unfold calculateBytesSaved
    ring_nf
  · unfold calculateBytesSaved
    push_cast
    ring

lemma summary_totalPatterns (cs : List ConsolidationCandidate) :
    (getPatternSummary cs).totalPatterns = cs.length := rfl

lemma summary_totalOccurrences (cs : List ConsolidationCandidate) :
    (getPatternSummary cs).totalOccurrences
      = cs.foldl (fun sum c => sum + c.frequency) 0 := rfl

lemma summary_avgFrequency (cs : List ConsolidationCandidate) :
    (getPatternSummary cs).avgFrequency
      = if 0 < cs.length
        then ((cs.foldl (fun sum c => sum + c.frequency) 0 : Nat) : Rat) / (cs.length : Rat)
        else 0 := rfl

lemma summary_avgClasses (cs : List ConsolidationCandidate) :
    (getPatternSummary cs).avgClassesPerPattern
      = if 0 < cs.length
        then ((cs.foldl (fun sum c => sum + c.classes.length) 0 : Nat) : Rat)
          / (cs.length : Rat)
        else 0 := rfl

/-- C9: the summary of the empty candidate list is all-zero, and the two
average fields are division-safe: multiplying them back by the pattern count
recovers the respective totals for every input list. -/
theorem C9_summary_empty_and_guarded :
    (getPatternSummary []).totalPatterns = 0 ∧
    (getPatternSummary []).totalOccurrences = 0 ∧
    (getPatternSummary []).totalBytesSaved = 0 ∧
    (getPatternSummary []).avgFrequency = 0 ∧
    (getPatternSummary []).avgClassesPerPattern = 0 ∧
    (∀ cs : List ConsolidationCandidate,
      (getPatternSummary cs).avgFrequency * ((getPatternSummary cs).totalPatterns : Rat)
        = ((getPatternSummary cs).totalOccurrences : Rat) ∧
      (getPatternSummary cs).avgClassesPerPattern * ((getPatternSummary cs).totalPatterns : Rat)
        = ((cs.foldl (fun sum c => sum + c.classes.length) 0 : Nat) : Rat)) := by
  refine ⟨rfl, rfl, rfl, rfl, rfl, ?_⟩
  intro cs
  rw [summary_avgFrequency, summary_avgClasses, summary_totalPatterns,
    summary_totalOccurrences]
  rcases Nat.eq_zero_or_pos cs.length with h | h
  · obtain rfl : cs = [] := List.length_eq_zero.mp h
    simp
  · have hne : (cs.length : Rat) ≠ 0 := Nat.cast_ne_zero.mpr (by omega)
    rw [if_pos h, if_pos h, div_mul_cancel₀ _ hne, div_mul_cancel₀ _ hne]
    exact ⟨rfl, rfl⟩

lemma mkCandidate_frequency (config : ClasspressoConfig) (i : Nat) (occ : ClassOccurrence) :
    (mkCandidate config i occ).frequency = occ.count := rfl

lemma mkCandidate_hashName (config : ClasspressoConfig) (i : Nat) (occ : ClassOccurrence) :
    (mkCandidate config i occ).hashName = generateSequentialName i config.hashPfx := rfl

/-- Inversion of the eligibility pass: an entry that survives it surfaces as
its own occurrence with every `continue` condition false. -/
lemma prelimStep_some {config : ClasspressoConfig} {mp : Option (List String)}
    {entry : String × ClassOccurrence} {pc : ClassOccurrence × Nat}
    (h : prelimStep config mp entry = some pc) :
    pc.1 = entry.2 ∧
    config.minOccurrences ≤ entry.2.count ∧
    config.minClasses ≤ entry.2.classes.length ∧
    (config.ssr && !isHydrationSafe entry.2) = false ∧
    (config.ssr && mergeableHas mp entry.2.normalizedKey) = false := by
  unfold prelimStep at h
  by_cases h1 : entry.2.count < config.minOccurrences
  · rw [if_pos h1] at h
    exact absurd h (by simp)
  rw [if_neg h1] at h
  by_cases h2 : entry.2.classes.length < config.minClasses
  · rw [if_pos h2] at h
    exact absurd h (by simp)
  rw [if_neg h2] at h
  by_cases h3 : (config.ssr && !isHydrationSafe entry.2) = true
  · rw [if_pos h3] at h
    exact absurd h (by simp)
  rw [if_neg h3] at h
  by_cases h4 : (config.ssr && mergeableHas mp entry.2.normalizedKey) = true
  · rw [if_pos h4] at h
    exact absurd h (by simp)
  rw [if_neg h4] at h
  by_cases h5 : (config.skipPatternsWithExcludedClasses
      && decide (0 < entry.2.excludedClasses.length)) = true
  · rw [if_pos h5] at h
    exact absurd h (by simp)
  rw [if_neg h5] at h
  injection h with h6
  subst h6
  exact ⟨rfl, by omega, by omega, Bool.eq_false_iff.mpr h3, Bool.eq_false_iff.mpr h4⟩

/-- The returned candidates are exactly the third-pass constructions
`mkCandidate` at their position in the frequency-sorted filtered list. -/
lemma mem_detect_iff {occurrences : List (String × ClassOccurrence)}
    {config : ClasspressoConfig} {mp : Option (List String)}
    {c : ConsolidationCandidate} :
    c ∈ detectConsolidatablePatterns occurrences config mp ↔
    ∃ (k : Nat) (h : k < (filteredCandidatesOf occurrences config mp).length),
      c = mkCandidate config k
        ((filteredCandidatesOf occurrences config mp).get ⟨k, h⟩).1 := by
  constructor
  · intro hc
    have h1 : c ∈ (filteredCandidatesOf occurrences config mp).enum.map
        (fun ip => mkCandidate config ip.1 ip.2.1) :=
      ((List.perm_insertionSort candGe _).mem_iff).mp hc
    obtain ⟨ip, hip, hc2⟩ := List.mem_map.mp h1
    obtain ⟨k, hk, hek⟩ := List.mem_iff_getElem.mp hip
    subst hek
    have hk' : k < (filteredCandidatesOf occurrences config mp).length := by
      simpa using hk
    refine ⟨k, hk', ?_⟩
    rw [← hc2, List.getElem_enum]
    rfl
  · rintro ⟨k, hk, rfl⟩
    apply ((List.perm_insertionSort candGe _).mem_iff).mpr
    apply List.mem_map.mpr
    refine ⟨(k, (filteredCandidatesOf occurrences config mp).get ⟨k, hk⟩), ?_, rfl⟩
    exact List.mem_iff_getElem.mpr
      ⟨k, by simpa using hk, by rw [List.getElem_enum, List.get_eq_getElem]⟩

/-- Every returned candidate originates from an input map entry that passed
all eligibility filters, and is built by `mkCandidate` from that entry's
occurrence. -/
lemma detect_sourced {occurrences : List (String × ClassOccurrence)}
    {config : ClasspressoConfig} {mp : Option (List String)}
    {c : ConsolidationCandidate}
    (hc : c ∈ detectConsolidatablePatterns occurrences config mp) :
    ∃ entry, entry ∈ occurrences ∧ ∃ i : Nat,
      c = mkCandidate config i entry.2 ∧
      config.minOccurrences ≤ entry.2.count ∧
      config.minClasses ≤ entry.2.classes.length ∧
      (config.ssr && !isHydrationSafe entry.2) = false ∧
      (config.ssr && mergeableHas mp entry.2.normalizedKey) = false := by
  obtain ⟨k, hk, rfl⟩ := mem_detect_iff.mp hc
  have hmemf : (filteredCandidatesOf occurrences config mp).get ⟨k, hk⟩
      ∈ filteredCandidatesOf occurrences config mp := List.get_mem _ _ _
  have hmem1 : (filteredCandidatesOf occurrences config mp).get ⟨k, hk⟩
      ∈ List.insertionSort countGe (occurrences.filterMap (prelimStep config mp)) :=
    List.mem_of_mem_filter hmemf
  have hmem2 : (filteredCandidatesOf occurrences config mp).get ⟨k, hk⟩
      ∈ occurrences.filterMap (prelimStep config mp) :=
    ((List.perm_insertionSort countGe _).mem_iff).mp hmem1
  obtain ⟨entry, hentry, hsome⟩ := List.mem_filterMap.mp hmem2
  have hps := prelimStep_some hsome
  refine ⟨entry, hentry, k, ?_, hps.2.1, hps.2.2.1, hps.2.2.2.1, hps.2.2.2.2⟩
  rw [hps.1]

/-- Demo occurrence: hydration-safe (seen in both contexts), meets every
threshold. -/
def c1occ : ClassOccurrence :=
  { classString := "flex gap-2", normalizedKey := "flex gap-2", count := 20,
    classes := ["flex", "gap-2"], excludedClasses := [],
    sourceTypes := [SourceType.html, SourceType.js] }

/-- Demo configuration with both `ssr` and `forceAll` enabled. -/
def c1cfg : ClasspressoConfig :=
  { minOccurrences := 1, minClasses := 1, minBytesSaved := 0, hashPfx := "cp-",
    ssr := true, forceAll := true }

/-- C1 counterexample: with `ssr = true` and `forceAll = true`, an occurrence
that meets the `minOccurrences`/`minClasses` thresholds (and is even
hydration-safe) is still rejected when its normalized key is in the
caller-supplied mergeable set — `forceAll` does not bypass that filter (the
same call without the mergeable set produces the candidate). -/
theorem C1_forceAll_counterexample :
    c1cfg.ssr = true ∧ c1cfg.forceAll = true ∧
    c1cfg.minOccurrences ≤ c1occ.count ∧
    c1cfg.minClasses ≤ c1occ.classes.length ∧
    isHydrationSafe c1occ = true ∧
    mergeableHas (some ["flex gap-2"]) c1occ.normalizedKey = true ∧
    detectConsolidatablePatterns [("flex gap-2", c1occ)] c1cfg (some ["flex gap-2"]) = [] ∧
    detectConsolidatablePatterns [("flex gap-2", c1occ)] c1cfg none
      = [mkCandidate c1cfg 0 c1occ] := by
  decide

/-- C1 (amended): `forceAll` bypasses only the net-positive-savings filter.
With `ssr = true` the hydration-safety and mergeable-pattern filters still
apply regardless of `forceAll`: every candidate that is returned comes from an
occurrence that passed the hydration-safety check and whose normalized key is
not in the caller-supplied mergeable set. -/
theorem C1_ssr_filters_apply (occurrences : List (String × ClassOccurrence))
    (config : ClasspressoConfig) (mp : Option (List String))
    (hssr : config.ssr = true) :
    ∀ c ∈ detectConsolidatablePatterns occurrences config mp,
      ∃ entry, entry ∈ occurrences ∧
        c.normalizedKey = entry.2.normalizedKey ∧
        c.classString = entry.2.classString ∧
        c.frequency = entry.2.count ∧
        isHydrationSafe entry.2 = true ∧
        mergeableHas mp entry.2.normalizedKey = false := by
  intro c hc
  obtain ⟨entry, hentry, i, rfl, _, _, h4, h5⟩ := detect_sourced hc
  rw [hssr] at h4 h5
  refine ⟨entry, hentry, rfl, rfl, rfl, ?_, ?_⟩
  · simpa using h4
  · simpa using h5

/-- Witness for C1 (amended) at a concrete input whose detection output is
nonempty in ssr mode. -/
theorem C1_ssr_filters_apply_witness :
    ∃ entry, entry ∈ [("flex gap-2", c1occ)] ∧
      (mkCandidate c1cfg 0 c1occ).normalizedKey = entry.2.normalizedKey ∧
      (mkCandidate c1cfg 0 c1occ).classString = entry.2.classString ∧
      (mkCandidate c1cfg 0 c1occ).frequency = entry.2.count ∧
      isHydrationSafe entry.2 = true ∧
      mergeableHas (some ["other"]) entry.2.normalizedKey = false :=
  C1_ssr_filters_apply [("flex gap-2", c1occ)] c1cfg (some ["other"]) rfl
    (mkCandidate c1cfg 0 c1occ) (by decide)

/-- C10: every returned candidate is a record whose `classString`,
`normalizedKey`, `frequency` (= `count`), `classes` and `excludedClasses` are
copied from an input occurrence present in the map (the embedding is pure, so
the input map itself is returned to the caller unchanged by construction). -/
theorem C10_candidates_copied (occurrences : List (String × ClassOccurrence))
    (config : ClasspressoConfig) (mp : Option (List String)) :
    ∀ c ∈ detectConsolidatablePatterns occurrences config mp,
      ∃ entry, entry ∈ occurrences ∧
        c.classString = entry.2.classString ∧
        c.normalizedKey = entry.2.normalizedKey ∧
        c.frequency = entry.2.count ∧
        c.classes = entry.2.classes ∧
        c.excludedClasses = entry.2.excludedClasses := by
  intro c hc
  obtain ⟨entry, hentry, i, rfl, _⟩ := detect_sourced hc
  exact ⟨entry, hentry, rfl, rfl, rfl, rfl, rfl⟩

/-- Demo occurrence with the higher frequency. -/
def occA : ClassOccurrence :=
  { classString := "flex items-center gap-2",
    normalizedKey := "flex gap-2 items-center", count := 30,
    classes := ["flex", "items-center", "gap-2"], excludedClasses := [] }

/-- Demo occurrence with the lower frequency. -/
def occB : ClassOccurrence :=
  { classString := "flex gap-2", normalizedKey := "flex gap-2", count := 12,
    classes := ["flex", "gap-2"], excludedClasses := [] }

/-- Demo configuration mirroring the test suite's default. -/
def cfg4 : ClasspressoConfig :=
  { minOccurrences := 2, minClasses := 2, minBytesSaved := 10, hashPfx := "cp-" }

/-- Demo occurrence map with two patterns of different frequency. -/
def demo4 : List (String × ClassOccurrence) :=
  [("flex gap-2 items-center", occA), ("flex gap-2", occB)]

/-- Witness for C10 at a concrete input. -/
theorem C10_candidates_copied_witness :
    ∃ entry, entry ∈ demo4 ∧
      (mkCandidate cfg4 0 occA).classString = entry.2.classString ∧
      (mkCandidate cfg4 0 occA).normalizedKey = entry.2.normalizedKey ∧
      (mkCandidate cfg4 0 occA).frequency = entry.2.count ∧
      (mkCandidate cfg4 0 occA).classes = entry.2.classes ∧
      (mkCandidate cfg4 0 occA).excludedClasses = entry.2.excludedClasses :=
  C10_candidates_copied demo4 cfg4 none (mkCandidate cfg4 0 occA) (by decide)

/-- C4: among returned candidates, strictly greater frequency means the name
was generated from a strictly smaller sequential index, hence is no longer. -/
theorem C4_names_by_frequency (occurrences : List (String × ClassOccurrence))
    (config : ClasspressoConfig) (mp : Option (List String)) :
    ∀ c₁ ∈ detectConsolidatablePatterns occurrences config mp,
    ∀ c₂ ∈ detectConsolidatablePatterns occurrences config mp,
      c₂.frequency < c₁.frequency →
      ∃ i j : Nat, i < j ∧
        c₁.hashName = generateSequentialName i config.hashPfx ∧
        c₂.hashName = generateSequentialName j config.hashPfx ∧
        c₁.hashName.length ≤ c₂.hashName.length := by
  intro c₁ h₁ c₂ h₂ hfreq
  obtain ⟨i, hi, rfl⟩ := mem_detect_iff.mp h₁
  obtain ⟨j, hj, rfl⟩ := mem_detect_iff.mp h₂
  rw [mkCandidate_frequency, mkCandidate_frequency] at hfreq
  have hpair : (filteredCandidatesOf occurrences config mp).Pairwise countGe :=
    (List.sorted_insertionSort countGe _).filter _
  have hij : i < j := by
    rcases Nat.lt_trichotomy i j with h | h | h
    · exact h
    · subst h
      exact absurd hfreq (lt_irrefl _)
    · have hcg := List.pairwise_iff_getElem.mp hpair j i (by omega) (by omega) h
      exact absurd hfreq (not_lt.mpr hcg)
  refine ⟨i, j, hij, mkCandidate_hashName _ _ _, mkCandidate_hashName _ _ _, ?_⟩
  rw [mkCandidate_hashName, mkCandidate_hashName]
  exact generateSequentialName_length_mono (le_of_lt hij) _

/-- Witness for C4 at a concrete input with two candidates of different
frequency. -/
theorem C4_names_by_frequency_witness :
    (mkCandidate cfg4 1 occB).frequency < (mkCandidate cfg4 0 occA).frequency ∧
    ∃ i j : Nat, i < j ∧
      (mkCandidate cfg4 0 occA).hashName = generateSequentialName i cfg4.hashPfx ∧
      (mkCandidate cfg4 1 occB).hashName = generateSequentialName j cfg4.hashPfx ∧
      (mkCandidate cfg4 0 occA).hashName.length
        ≤ (mkCandidate cfg4 1 occB).hashName.length :=
  ⟨by decide, C4_names_by_frequency demo4 cfg4 none
    (mkCandidate cfg4 0 occA) (by decide)
    (mkCandidate cfg4 1 occB) (by decide) (by decide)⟩

/-- C3: the candidate list returned by `detectConsolidatablePatterns` is
sorted with `bytesSaved` non-increasing from the first element to the last. -/
theorem C3_output_sorted_by_bytesSaved (occurrences : List (String × ClassOccurrence))
    (config : ClasspressoConfig) (mergeablePatterns : Option (List String)) :
    (detectConsolidatablePatterns occurrences config mergeablePatterns).Pairwise
      (fun a b => b.bytesSaved ≤ a.bytesSaved) :=
  List.sorted_insertionSort candGe _

/-! ### Mergeable-pattern detection (spec-modelled: `src/core/scanner.ts` is
absent from the provided sources; only its test file imports
`isProperSubset`/`detectMergeablePatterns`) -/

/-- Modelled from the spec: `isProperSubset` of the missing
`src/core/scanner.ts`.  Spec §4.2(a): "every token in A appears in B, and A
has strictly fewer tokens — equality does not count"; behavior pinned by the
scanner tests (empty set is a proper subset of any non-empty set, never of the
empty set). -/
def isProperSubset (a b : List String) : Bool :=
  decide (a.length < b.length) && a.all (fun t => b.contains t)

/-- Observed only in client-script context (`sourceTypes = {js}`). -/
def onlyJs (st : List SourceType) : Bool :=
  st.contains SourceType.js && !st.contains SourceType.html
    && !st.contains SourceType.rsc

/-- Observed only in server-rendered-markup context (`sourceTypes = {html}`). -/
def onlyHtml (st : List SourceType) : Bool :=
  st.contains SourceType.html && !st.contains SourceType.js
    && !st.contains SourceType.rsc

/-- Modelled from the spec: `detectMergeablePatterns` of the missing
`src/core/scanner.ts`.  Spec §4.2(a): for every pair of distinct normalized
patterns (A, B), if A's token set is a strict subset of B's, A was observed
only in client-script context and B only in server-rendered-markup context,
then A's normalized key is flagged "mergeable".  The returned `Set` is the
list of flagged keys. -/
def detectMergeablePatterns (occurrences : List (String × ClassOccurrence)) :
    List String :=
  occurrences.filterMap (fun pa =>
    if onlyJs pa.2.sourceTypes
        && occurrences.any (fun pb =>
            onlyHtml pb.2.sourceTypes && isProperSubset pa.2.classes pb.2.classes)
    then some pa.2.normalizedKey
    else none)

/-- Every flagged key comes from an only-script occurrence carrying it. -/
lemma mergeable_mem_inv {occurrences : List (String × ClassOccurrence)}
    {key : String} (hkey : key ∈ detectMergeablePatterns occurrences) :
    ∃ pc, pc ∈ occurrences ∧ pc.2.normalizedKey = key ∧
      onlyJs pc.2.sourceTypes = true := by
  obtain ⟨pa, hpa, hsome⟩ := List.mem_filterMap.mp hkey
  by_cases hcond : (onlyJs pa.2.sourceTypes
      && occurrences.any (fun pb =>
          onlyHtml pb.2.sourceTypes && isProperSubset pa.2.classes pb.2.classes)) = true
  · rw [if_pos hcond] at hsome
    injection hsome with hsome
    have hc := hcond
    rw [Bool.and_eq_true] at hc
    exact ⟨pa, hpa, hsome, hc.1⟩
  · rw [if_neg hcond] at hsome
    exact absurd hsome (by simp)

/-- C2: a pattern observed only in script context whose token set is a strict
subset of a pattern observed only in markup context is flagged; every flagged
key comes from an only-script occurrence; hence a pattern seen in both
contexts (its key unique in the map) is never flagged. -/
theorem C2_mergeable_subset (occurrences : List (String × ClassOccurrence)) :
    (∀ pa ∈ occurrences, ∀ pb ∈ occurrences,
      isProperSubset pa.2.classes pb.2.classes = true →
      onlyJs pa.2.sourceTypes = true →
      onlyHtml pb.2.sourceTypes = true →
      pa.2.normalizedKey ∈ detectMergeablePatterns occurrences) ∧
    (∀ key ∈ detectMergeablePatterns occurrences,
      ∃ pc, pc ∈ occurrences ∧ pc.2.normalizedKey = key ∧
        onlyJs pc.2.sourceTypes = true) ∧
    (∀ pa ∈ occurrences,
      pa.2.sourceTypes.contains SourceType.js = true →
      pa.2.sourceTypes.contains SourceType.html = true →
      (∀ pb ∈ occurrences, pb.2.normalizedKey = pa.2.normalizedKey → pb = pa) →
      pa.2.normalizedKey ∉ detectMergeablePatterns occurrences) := by
  refine ⟨?_, ?_, ?_⟩
  · intro pa hpa pb hpb hsub hjs hhtml
    apply List.mem_filterMap.mpr
    refine ⟨pa, hpa, ?_⟩
    rw [if_pos]
    rw [Bool.and_eq_true]
    exact ⟨hjs, List.any_eq_true.mpr ⟨pb, hpb, by rw [Bool.and_eq_true]; exact ⟨hhtml, hsub⟩⟩⟩
  · intro key hkey
    exact mergeable_mem_inv hkey
  · intro pa hpa hjs hhtml huniq hmem
    obtain ⟨pc, hpc, hpckey, hpcjs⟩ := mergeable_mem_inv hmem
    have := huniq pc hpc hpckey
    subst this
    rw [onlyJs, Bool.and_eq_true, Bool.and_eq_true] at hpcjs
    rw [hhtml] at hpcjs
    exact absurd hpcjs.1.2 (by simp)

/-- Demo only-script pattern whose tokens are a strict subset of
`c2occB`'s. -/
def c2occA : ClassOccurrence :=
  { classString := "h-4 w-4", normalizedKey := "h-4 w-4", count := 1,
    classes := ["h-4", "w-4"], excludedClasses := [],
    sourceTypes := [SourceType.js] }

/-- Demo only-markup pattern (icon-library merge target). -/
def c2occB : ClassOccurrence :=
  { classString := "lucide lucide-copy h-4 w-4",
    normalizedKey := "h-4 lucide lucide-copy w-4", count := 1,
    classes := ["lucide", "lucide-copy", "h-4", "w-4"], excludedClasses := [],
    sourceTypes := [SourceType.html] }

/-- Demo occurrence map for the mergeable-pattern scenario. -/
def c2occs : List (String × ClassOccurrence) :=
  [("h-4 w-4", c2occA), ("h-4 lucide lucide-copy w-4", c2occB)]

/-- Witness for C2: the icon-library scenario from the scanner tests. -/
theorem C2_mergeable_subset_witness :
    "h-4 w-4" ∈ detectMergeablePatterns c2occs :=
  (C2_mergeable_subset c2occs).1 ("h-4 w-4", c2occA) (by decide)
    ("h-4 lucide lucide-copy w-4", c2occB) (by decide)
    (by decide) (by decide) (by decide)

/-! ### Collision resolution (`resolveCollisions` in `src/utils/hash.ts`).
The template-literal suffix `${suffix}` is the decimal numeral `Nat.repr`;
the next lemmas establish that decimal numerals are injective, which bounds
the collision loop. -/

lemma toDigitsCore_acc : ∀ fuel n acc, n < fuel →
    Nat.toDigitsCore 10 fuel n acc = Nat.toDigitsCore 10 (n + 1) n [] ++ acc := by
  intro fuel
  induction fuel using Nat.strong_induction_on with
  | _ fuel ih =>
    intro n acc hn
    match fuel, hn with
    | f + 1, hn =>
      by_cases h0 : n / 10 = 0
      · simp only [Nat.toDigitsCore]
        rw [if_pos h0, if_pos h0]
        rfl
      · have hn0 : n ≠ 0 := fun h => h0 (by simp [h])
        have h10 : n / 10 < n := Nat.div_lt_self (by omega) (by omega)
        simp only [Nat.toDigitsCore]
        rw [if_neg h0, if_neg h0]
        rw [ih f (by omega) (n / 10) _ (by omega)]
        rw [ih n (by omega) (n / 10) _ (by omega)]
        rw [List.append_assoc]
        rfl

lemma digitChar_toNat_sub : ∀ d, d < 10 → (Nat.digitChar d).toNat - 48 = d := by
  decide

lemma decVal_aux (n : Nat) : ∀ a : Nat,
    (Nat.toDigits 10 n).foldl (fun a c => a * 10 + (c.toNat - 48)) a
      = a * 10 ^ (Nat.toDigits 10 n).length + n := by
  induction n using Nat.strong_induction_on with
  | _ n ih =>
    intro a
    by_cases h0 : n / 10 = 0
    · have heq : Nat.toDigits 10 n = [Nat.digitChar (n % 10)] := by
        unfold Nat.toDigits
        simp only [Nat.toDigitsCore]
        rw [if_pos h0]
      rw [heq]
      have hn10 : n < 10 := by omega
      simp only [List.foldl_cons, List.foldl_nil, List.length_cons, List.length_nil]
      rw [digitChar_toNat_sub (n % 10) (by omega)]
      rw [Nat.mod_eq_of_lt hn10, pow_one]
    · have hn0 : n ≠ 0 := fun h => h0 (by simp [h])
      have h10 : n / 10 < n := Nat.div_lt_self (by omega) (by omega)
      have heq : Nat.toDigits 10 n
          = Nat.toDigits 10 (n / 10) ++ [Nat.digitChar (n % 10)] := by
        unfold Nat.toDigits
        simp only [Nat.toDigitsCore]
        rw [if_neg h0]
        exact toDigitsCore_acc n (n / 10) [Nat.digitChar (n % 10)] (by omega)
      rw [heq, List.foldl_append]
      rw [ih (n / 10) h10 a]
      simp only [List.foldl_cons, List.foldl_nil, List.length_append,
        List.length_cons, List.length_nil]
      rw [digitChar_toNat_sub (n % 10) (Nat.mod_lt _ (by omega))]
      rw [pow_succ]
      generalize (10 : Nat) ^ (Nat.toDigits 10 (n / 10)).length = P
      calc (a * P + n / 10) * 10 + n % 10
          = a * (P * 10) + ((n / 10) * 10 + n % 10) := by ring
        _ = a * (P * 10) + n := by rw [show (n / 10) * 10 + n % 10 = n from by omega]

lemma toDigits_injective : Function.Injective (Nat.toDigits 10) := by
  intro m n h
  have hm := decVal_aux m 0
  have hn := decVal_aux n 0
  simp only [Nat.zero_mul, Nat.zero_add] at hm hn
  rw [h] at hm
  exact hm.symm.trans hn

/-- Decimal numerals are injective: distinct suffixes yield distinct names. -/
lemma repr_injective : Function.Injective Nat.repr := by
  intro m n h
  have hd : Nat.toDigits 10 m = Nat.toDigits 10 n := congrArg String.data h
  exact toDigits_injective hd

/-- The `{ hashName, normalizedKey }` shape `resolveCollisions` operates on. -/
structure NamedCand where
  hashName : String
  normalizedKey : String
deriving DecidableEq

/-- `Map.get` over the collision registry (first matching key). -/
def alistFind : List (String × NamedCand) → String → Option NamedCand
  | [], _ => none
  | p :: rest, h => if p.1 = h then some p.2 else alistFind rest h

/-- The collision-loop condition:
`hashMap.has(hash) && hashMap.get(hash).normalizedKey !== candidate.normalizedKey`. -/
def claimedByDiff (m : List (String × NamedCand)) (key hash : String) : Bool :=
  match alistFind m hash with
  | some c => decide (c.normalizedKey ≠ key)
  | none => false

/-- `hashMap.set(hash, candidate)`: replace an existing binding or append. -/
def mapSet (m : List (String × NamedCand)) (k : String) (v : NamedCand) :
    List (String × NamedCand) :=
  if m.any (fun p => p.1 == k) then m.map (fun p => if p.1 == k then (k, v) else p)
  else m ++ [(k, v)]

/-- The inner while loop of `resolveCollisions`:
`while (collision) { suffix++; hash = candidate.hashName + suffix }`.
The loop tries pairwise-distinct names, and the registry `m` holds at most
`m.length` claimed names, so the loop always succeeds within `m.length + 2`
rounds (`exists_free_suffix` + `resolveLoop_spec`); with that much fuel the
bounded recursion computes exactly what the unbounded source loop does. -/
def resolveLoop (m : List (String × NamedCand)) (key base : String) :
    Nat → Nat → String → String
  | 0, _, hash => hash
  | fuel + 1, suffix, hash =>
    if claimedByDiff m key hash then
      resolveLoop m key base fuel (suffix + 1) (base ++ Nat.repr (suffix + 1))
    else hash

/-- One iteration of the outer `for` loop of `resolveCollisions`: run the
while loop and overwrite the candidate's `hashName` with its result. -/
def resolveStep (m : List (String × NamedCand)) (c : NamedCand) : NamedCand :=
  { c with
    hashName := resolveLoop m c.normalizedKey c.hashName (m.length + 2) 0 c.hashName }

/-- The outer `for` loop of `resolveCollisions`: walk the candidates in
order, registering each resolved name. -/
def resolveGo : List (String × NamedCand) → List NamedCand → List NamedCand
  | _, [] => []
  | m, c :: cs =>
    let r := resolveStep m c
    r :: resolveGo (mapSet m r.hashName r) cs

/-- `resolveCollisions` from `src/utils/hash.ts` (the source mutates the
candidates in place and returns the same array; the embedding returns the
list of updated candidates). -/
def resolveCollisions (candidates : List NamedCand) : List NamedCand :=
  resolveGo [] candidates

/-- The name tried by the while loop at round `k`: the original name first,
then `hashName + k`. -/
def tryName (base : String) : Nat → String
  | 0 => base
  | k + 1 => base ++ Nat.repr (k + 1)

lemma tryName_pos (base : String) : ∀ {k : Nat}, 1 ≤ k →
    tryName base k = base ++ Nat.repr k
  | _ + 1, _ => rfl

lemma tryName_inj_pos {base : String} {a b : Nat} (ha : 1 ≤ a) (hb : 1 ≤ b)
    (h : tryName base a = tryName base b) : a = b := by
  rw [tryName_pos base ha, tryName_pos base hb] at h
  have hd := congrArg String.data h
  simp only [String.data_append] at hd
  have hc : (Nat.repr a).data = (Nat.repr b).data := List.append_cancel_left hd
  apply repr_injective
  exact congrArg String.mk hc

lemma alistFind_mem : ∀ (m : List (String × NamedCand)) (hash : String)
    (c : NamedCand), alistFind m hash = some c → hash ∈ m.map Prod.fst
  | [], _, _, h => by simp [alistFind] at h
  | p :: rest, hash, c, h => by
    rw [alistFind] at h
    by_cases hp : p.1 = hash
    · simp [hp]
    · rw [if_neg hp] at h
      simp only [List.map_cons, List.mem_cons]
      exact Or.inr (alistFind_mem rest hash c h)

lemma claimedByDiff_true_mem {m : List (String × NamedCand)} {key hash : String}
    (h : claimedByDiff m key hash = true) : hash ∈ m.map Prod.fst := by
  unfold claimedByDiff at h
  cases hfind : alistFind m hash with
  | none => rw [hfind] at h; exact absurd h (by simp)
  | some c => exact alistFind_mem m hash c hfind

/-- Pigeonhole: among the suffixes `1 .. m.length + 1` some tried name is not
claimed by a different key, because the tried names are pairwise distinct and
the registry holds at most `m.length` names. -/
lemma exists_free_suffix (m : List (String × NamedCand)) (key base : String) :
    ∃ k, 1 ≤ k ∧ k ≤ m.length + 1 ∧
      claimedByDiff m key (tryName base k) = false := by
  by_contra hcon
  push_neg at hcon
  have hmem : ∀ k ∈ Finset.Icc 1 (m.length + 1),
      tryName base k ∈ (m.map Prod.fst).toFinset := by
    intro k hk
    rw [Finset.mem_Icc] at hk
    have hne := hcon k hk.1 hk.2
    have htrue : claimedByDiff m key (tryName base k) = true := by
      cases hb : claimedByDiff m key (tryName base k)
      · exact absurd hb hne
      · rfl
    exact List.mem_toFinset.mpr (claimedByDiff_true_mem htrue)
  have hinj : Set.InjOn (fun k => tryName base k)
      (Finset.Icc 1 (m.length + 1)) := by
    intro a ha b hb hab
    rw [Finset.coe_Icc, Set.mem_Icc] at ha hb
    exact tryName_inj_pos ha.1 hb.1 hab
  have hcard := Finset.card_le_card_of_injOn _ hmem hinj
  rw [Nat.card_Icc] at hcard
  have hle := List.toFinset_card_le (m.map Prod.fst)
  rw [List.length_map] at hle
  omega

lemma resolveLoop_zero (m : List (String × NamedCand)) (key base : String)
    (suffix : Nat) (hash : String) :
    resolveLoop m key base 0 suffix hash = hash := rfl

lemma resolveLoop_succ (m : List (String × NamedCand)) (key base : String)
    (fuel suffix : Nat) (hash : String) :
    resolveLoop m key base (fuel + 1) suffix hash
      = if claimedByDiff m key hash then
          resolveLoop m key base fuel (suffix + 1) (base ++ Nat.repr (suffix + 1))
        else hash := rfl

/-- The while loop returns the first tried name that is not claimed by a
different key, provided one exists within the fuel budget. -/
lemma resolveLoop_spec (m : List (String × NamedCand)) (key base : String) :
    ∀ (fuel s : Nat),
      (∃ k, s ≤ k ∧ k ≤ s + fuel ∧ claimedByDiff m key (tryName base k) = false) →
      ∃ k, s ≤ k ∧ claimedByDiff m key (tryName base k) = false ∧
        (∀ j, s ≤ j → j < k → claimedByDiff m key (tryName base j) = true) ∧
        resolveLoop m key base fuel s (tryName base s) = tryName base k := by
  intro fuel
  induction fuel with
  | zero =>
    intro s hex
    obtain ⟨k, hk1, hk2, hk3⟩ := hex
    have hks : k = s := by omega
    subst hks
    exact ⟨k, le_refl _, hk3, fun j h1 h2 => absurd h2 (by omega), rfl⟩
  | succ fuel ih =>
    intro s hex
    by_cases hcb : claimedByDiff m key (tryName base s) = true
    · obtain ⟨k, hk1, hk2, hk3⟩ := hex
      have hkne : k ≠ s := by
        intro he
        subst he
        rw [hk3] at hcb
        exact Bool.false_ne_true hcb
      obtain ⟨k', h1, h2, h3, h4⟩ := ih (s + 1) ⟨k, by omega, by omega, hk3⟩
      refine ⟨k', by omega, h2, ?_, ?_⟩
      · intro j hj1 hj2
        rcases Nat.eq_or_lt_of_le hj1 with he | hlt
        · rw [← he]
          exact hcb
        · exact h3 j (by omega) hj2
      · rw [resolveLoop_succ, if_pos hcb]
        exact h4
    · have hfalse : claimedByDiff m key (tryName base s) = false := by
        cases hb : claimedByDiff m key (tryName base s)
        · rfl
        · exact absurd hb hcb
      refine ⟨s, le_refl _, hfalse, fun j h1 h2 => absurd h2 (by omega), ?_⟩
      rw [resolveLoop_succ, if_neg hcb]

/-- C8: `resolveCollisions` walks the candidates in order (`resolveGo` over a
registry of names claimed by earlier candidates).  At each step: the key is
untouched; if the candidate's `hashName` is not claimed by an
earlier-registered different `normalizedKey` (unique name, or the same key
reusing the name) the candidate is unchanged; otherwise it gets
`hashName + k` for the smallest numeric suffix `k ≥ 1` whose name is not
claimed by a different key. -/
theorem C8_resolveCollisions_spec (m : List (String × NamedCand)) (c : NamedCand) :
    (∀ cs, resolveCollisions cs = resolveGo [] cs) ∧
    (∀ m' c' cs, resolveGo m' (c' :: cs)
        = resolveStep m' c'
          :: resolveGo (mapSet m' (resolveStep m' c').hashName (resolveStep m' c')) cs) ∧
    (resolveStep m c).normalizedKey = c.normalizedKey ∧
    (claimedByDiff m c.normalizedKey c.hashName = false → resolveStep m c = c) ∧
    (claimedByDiff m c.normalizedKey c.hashName = true →
      ∃ k, 1 ≤ k ∧
        (resolveStep m c).hashName = c.hashName ++ Nat.repr k ∧
        claimedByDiff m c.normalizedKey ((resolveStep m c).hashName) = false ∧
        ∀ j, 1 ≤ j → j < k →
          claimedByDiff m c.normalizedKey (c.hashName ++ Nat.repr j) = true) := by
  refine ⟨fun cs => rfl, fun m' c' cs => rfl, rfl, ?_, ?_⟩
  · intro hfalse
    have hloop : resolveLoop m c.normalizedKey c.hashName (m.length + 2) 0 c.hashName
        = c.hashName := by
      rw [show m.length + 2 = (m.length + 1) + 1 from rfl, resolveLoop_succ,
        if_neg (by rw [hfalse]; exact Bool.false_ne_true)]
    unfold resolveStep
    rw [hloop]
  · intro htrue
    obtain ⟨k0, hk01, hk02, hk03⟩ := exists_free_suffix m c.normalizedKey c.hashName
    obtain ⟨k, hks, hkfree, hkmin, hkres⟩ := resolveLoop_spec m c.normalizedKey
      c.hashName (m.length + 2) 0 ⟨k0, by omega, by omega, hk03⟩
    have hres0 : resolveLoop m c.normalizedKey c.hashName (m.length + 2) 0 c.hashName
        = tryName c.hashName k := hkres
    have hk1 : 1 ≤ k := by
      rcases Nat.eq_zero_or_pos k with h | h
      · exfalso
        rw [h] at hkfree
        simp only [tryName] at hkfree
        rw [htrue] at hkfree
        exact absurd hkfree (by simp)
      · omega
    refine ⟨k, hk1, ?_, ?_, ?_⟩
    · show resolveLoop m c.normalizedKey c.hashName (m.length + 2) 0 c.hashName = _
      rw [hres0, tryName_pos _ hk1]
    · show claimedByDiff m c.normalizedKey
        (resolveLoop m c.normalizedKey c.hashName (m.length + 2) 0 c.hashName) = false
      rw [hres0]
      exact hkfree
    · intro j hj1 hj2
      have hmin := hkmin j (by omega) hj2
      rw [tryName_pos _ hj1] at hmin
      exact hmin

/-- Demo registry: one earlier candidate already claimed `"cp-abc12"` with a
different key. -/
def demoM : List (String × NamedCand) :=
  [("cp-abc12", { hashName := "cp-abc12", normalizedKey := "flex gap-2" })]

/-- Demo candidate colliding with the registered name. -/
def demoC : NamedCand := { hashName := "cp-abc12", normalizedKey := "flex gap-4" }

/-- Witness for C8: the suffix path at a concrete collision. -/
theorem C8_resolveCollisions_spec_witness :
    claimedByDiff demoM demoC.normalizedKey demoC.hashName = true ∧
    ∃ k, 1 ≤ k ∧
      (resolveStep demoM demoC).hashName = demoC.hashName ++ Nat.repr k ∧
      claimedByDiff demoM demoC.normalizedKey ((resolveStep demoM demoC).hashName)
        = false := by
  refine ⟨by decide, ?_⟩
  obtain ⟨k, h1, h2, h3, _⟩ :=
    (C8_resolveCollisions_spec demoM demoC).2.2.2.2 (by decide)
  exact ⟨k, h1, h2, h3⟩

end Classpresso
